import Mathlib

/-!
Verification of the event delegation and lifecycle core of the maptalks
library: the `Eventable` publish/subscribe mixin (`src/core/Event.js`),
the `MapTool` slot/enable/disable state machine, and the `UIComponent`
overlay lifecycle.

The JavaScript is shallowly embedded:
* object identity (handler functions, contexts, emitters, payload objects)
  is modelled by natural-number ids;
* the emitter state (`_eventMap`, `_eventParent`) becomes a `World` record;
  `_eventMap` is absent (`none`) until the first registration, exactly as in
  the source;
* closures produced by `_wrapOnceHandler` are defunctionalized into a wrapper
  table carrying the captured `evtType`, inner handler, captured context,
  owner emitter and the mutable `called` guard;
* payload objects live in an explicit heap of field/value association lists,
  so in-place mutation (`param['type'] = eventType`) versus cloning
  (`Z.Util.extend(\x7b\x7d, param)`) is observable;
* arbitrary handler behaviour is a parameter (`HSem`): a handler may rewrite
  the whole event `World` (modelling calls to `on`/`off`/... from inside a
  handler), mutate the payload object it received, and choose a return value.

`String.splitOn` and `String.toLower` do not reduce in the kernel, so the
embedding uses its own structurally recursive `splitSp` (the JS
`eventsOn.split(' ')`) and `toLowerS` (ASCII `toLowerCase`, which is what the
event-type strings of the library exercise).
-/

/-- ASCII lower-casing of one character (JS `toLowerCase` restricted to the
ASCII event-type alphabet used by the library). -/
def lcChar (c : Char) : Char :=
  if 65 ≤ c.toNat ∧ c.toNat ≤ 90 then Char.ofNat (c.toNat + 32) else c

/-- `toLowerCase` on event-type strings. -/
def toLowerS (s : String) : String := ⟨s.data.map lcChar⟩

/-- Worker for `splitSp`: split a character list at every separator. -/
def splitChars (sep : Char) : List Char → List Char → List (List Char)
  | [], acc => [acc.reverse]
  | c :: rest, acc =>
    if c = sep then acc.reverse :: splitChars sep rest []
    else splitChars sep rest (c :: acc)

/-- The JS `s.split(' ')`: `"a b" ↦ ["a", "b"]`, `"" ↦ [""]`. -/
def splitSp (s : String) : List String := (splitChars ' ' s.data []).map (fun l => ⟨l⟩)

/-- Association-list lookup (JS object property read). -/
def alookup {κ α : Type} [DecidableEq κ] : List (κ × α) → κ → Option α
  | [], _ => none
  | (k, v) :: rest, k' => if k = k' then some v else alookup rest k'

/-- Association-list update-or-insert (JS object property write). -/
def aupdate {κ α : Type} [DecidableEq κ] : List (κ × α) → κ → α → List (κ × α)
  | [], k, v => [(k, v)]
  | (k0, v0) :: rest, k, v =>
    if k0 = k then (k0, v) :: rest else (k0, v0) :: aupdate rest k v

/-- Handler function identity (JS function object reference). -/
abbrev HId := Nat

/-- Context object identity; emitter `e` used as a context has identity `e`
(emitters and contexts share the id space). -/
abbrev Ctx := Nat

/-- Emitter identity. -/
abbrev EId := Nat

/-- One entry of a HandlerChain: the `(handler, context)` pair pushed by
`Eventable.on`; identity is reference equality of both components. -/
structure Subscriber where
  handler : HId
  context : Ctx
deriving DecidableEq, Repr

/-- An EventMap: event type (stored lowercased) to HandlerChain. -/
abbrev EMap := List (String × List Subscriber)

/-- One emitter: `_eventMap` (absent until first `on`) and `_eventParent`. -/
structure Emitter where
  eventMap : Option EMap
  eventParent : Option EId
deriving DecidableEq, Repr

/-- The defunctionalized closure produced by `Eventable._wrapOnceHandler`:
captured event type, wrapped handler, captured context, the emitter `me`,
and the mutable `called` guard. -/
structure Wrapper where
  evtType : String
  inner : HId
  wctx : Option Ctx
  owner : EId
  called : Bool
deriving DecidableEq, Repr

/-- The event system state: all emitters (indexed by `EId`), the wrapper
closure table, and the allocator for fresh function identities. -/
structure World where
  emitters : List Emitter
  wrappers : List (HId × Wrapper)
  nextH : HId
deriving DecidableEq, Repr

def defaultEmitter : Emitter := ⟨none, none⟩

def getEmitter (w : World) (e : EId) : Emitter := w.emitters.getD e defaultEmitter

def setEmitter (w : World) (e : EId) (em : Emitter) : World :=
  { w with emitters := w.emitters.set e em }

/-- The HandlerChain an emitter currently holds for a (lowercased) type;
`[]` when the EventMap or the chain is absent. -/
def chainAt (w : World) (e : EId) (ty : String) : List Subscriber :=
  alookup ((getEmitter w e).eventMap.getD []) (toLowerS ty) |>.getD []

def parentOf (w : World) (e : EId) : Option EId := (getEmitter w e).eventParent

/-- The dedup / removal test of `on` and `off`:
`handler === chain[i].handler && chain[i].context === context`. -/
def subMatch (h : HId) (c : Ctx) (s : Subscriber) : Bool :=
  s.handler = h ∧ s.context = c

/-- The token loop of `Eventable.on`.  For each token: lowercase it, create
the chain if absent, and if the `(handler, context)` pair is already present
`return this` — which aborts the whole loop, leaving the remaining tokens
unprocessed; otherwise push the pair. -/
def onTokens (h : HId) (c : Ctx) : List String → EMap → EMap
  | [], m => m
  | tok :: rest, m =>
    let ty := toLowerS tok
    let chain := (alookup m ty).getD []
    if chain.any (subMatch h c) then m
    else onTokens h c rest (aupdate m ty (chain ++ [⟨h, c⟩]))

/-- `Eventable.on(eventsOn, handler, context)`.
Guard: `if (!eventsOn || !handler) return this`.  The context defaults to
the emitter itself.  The non-string (`_switch`) branch is not modelled:
all claims use string event types. -/
def onE (w : World) (e : EId) (eventsOn : String) (handler : Option HId)
    (context : Option Ctx) : World :=
  match handler with
  | none => w
  | some h =>
    if eventsOn = "" then w
    else
      let em := getEmitter w e
      let m0 := em.eventMap.getD []
      let c := context.getD e
      setEmitter w e { em with eventMap := some (onTokens h c (splitSp eventsOn) m0) }

/-- The backward splice scan of `Eventable.off`
(`for (i = len - 1; i >= 0; i--) if (match) splice(i, 1)`): every matching
pair is removed. -/
def removeMatches (h : HId) (c : Ctx) : List Subscriber → List Subscriber
  | [] => []
  | s :: rest =>
    if subMatch h c s then removeMatches h c rest else s :: removeMatches h c rest

/-- The token loop of `Eventable.off`.  For each token: look its chain up;
`if (!handlerChain) return this` — a missing chain aborts the whole loop —
else remove every matching pair. -/
def offTokens (h : HId) (c : Ctx) : List String → EMap → EMap
  | [], m => m
  | tok :: rest, m =>
    let ty := toLowerS tok
    match alookup m ty with
    | none => m
    | some chain => offTokens h c rest (aupdate m ty (removeMatches h c chain))

/-- `Eventable.off(eventsOff, handler, context)`.
Guard: `if (!eventsOff || !this._eventMap || !handler) return this`. -/
def offE (w : World) (e : EId) (eventsOff : String) (handler : Option HId)
    (context : Option Ctx) : World :=
  match handler, (getEmitter w e).eventMap with
  | some h, some m =>
    if eventsOff = "" then w
    else
      let c := context.getD e
      setEmitter w e { getEmitter w e with eventMap := some (offTokens h c (splitSp eventsOff) m) }
  | _, _ => w

/-- The counting loop of `Eventable.listens`: with a handler given, return 1
on the first entry whose handler matches and whose context matches when a
context was supplied (`isNil(context) ||` structural match), else 0; with no
handler, count every entry. -/
def listensCount : List Subscriber → Option HId → Option Ctx → Nat
  | [], _, _ => 0
  | s :: rest, some h, context =>
    if s.handler = h ∧ (context = none ∨ context = some s.context) then 1
    else listensCount rest (some h) context
  | _ :: rest, none, context => 1 + listensCount rest none context

/-- `Eventable.listens(eventType, handler, context)`: 0 when the EventMap or
the chain for the (lowercased) type is absent. -/
def listensE (w : World) (e : EId) (eventType : String) (handler : Option HId)
    (context : Option Ctx) : Nat :=
  match (getEmitter w e).eventMap with
  | none => 0
  | some m =>
    match alookup m (toLowerS eventType) with
    | none => 0
    | some chain => listensCount chain handler context

/-- `Eventable._clearAllListeners`: `this._eventMap = null`. -/
def clearAllListenersE (w : World) (e : EId) : World :=
  setEmitter w e { getEmitter w e with eventMap := none }

/-- `Eventable._setEventParent(parent)`. -/
def setEventParentE (w : World) (e : EId) (parent : EId) : World :=
  setEmitter w e { getEmitter w e with eventParent := some parent }

/-- `Eventable._wrapOnceHandler(evtType, handler, context)`: allocate a fresh
closure identity and record the captured state with `called = false`. -/
def wrapOnce (w : World) (owner : EId) (evtType : String) (handler : HId)
    (context : Option Ctx) : World × HId :=
  let wid := w.nextH
  ({ w with
      nextH := wid + 1,
      wrappers := w.wrappers ++ [(wid, ⟨evtType, handler, context, owner, false⟩)] }, wid)

/-- The token loop of `Eventable.once`: one fresh wrapper per token
(`this.on(evetTypes[i], this._wrapOnceHandler(evetTypes[i], handler, context))`,
registered with no explicit context). -/
def onceTokens (e : EId) (handler : HId) (context : Option Ctx) :
    List String → World → World
  | [], w => w
  | ty :: rest, w =>
    let p := wrapOnce w e ty handler context
    onceTokens e handler context rest (onE p.1 e ty (some p.2) none)

/-- `Eventable.once(eventTypes, handler, context)` (string path; the
non-string `_switch` branch is not modelled). -/
def onceE (w : World) (e : EId) (eventTypes : String) (handler : HId)
    (context : Option Ctx) : World :=
  onceTokens e handler context (splitSp eventTypes) w

/-- JS values that can sit in a payload field (only the shapes the claims
exercise; `undef` stands for `undefined`). -/
inductive Val where
  | vstr : String → Val
  | vnat : Nat → Val
  | vbool : Bool → Val
  | vemitter : EId → Val
  | undef : Val
deriving DecidableEq, Repr

/-- A payload object: field name to value. -/
abbrev Payload := List (String × Val)

/-- A reference to a payload object in the heap. -/
abbrev PRef := Nat

/-- Property read, `undefined` when absent. -/
def pget (p : Payload) (k : String) : Val := (alookup p k).getD Val.undef

/-- Property write (`param['k'] = v`). -/
def pset (p : Payload) (k : String) (v : Val) : Payload := aupdate p k v

/-- JS truthiness of a payload field value. -/
def truthy : Val → Bool
  | .vbool b => b
  | .vstr s => s ≠ ""
  | .vnat n => n ≠ 0
  | .vemitter _ => true
  | .undef => false

/-- Event-system state plus the payload-object heap (references are list
indices; allocation appends). -/
structure St where
  world : World
  heap : List Payload
deriving DecidableEq, Repr

def heapGet (st : St) (r : PRef) : Payload := st.heap.getD r []

def heapSet (st : St) (r : PRef) (p : Payload) : St :=
  { st with heap := st.heap.set r p }

def heapAlloc (st : St) (p : Payload) : St × PRef :=
  ({ st with heap := st.heap ++ [p] }, st.heap.length)

/-- Behaviour of the plain (user-supplied) handler functions, a parameter of
the dispatch semantics:
* `act` — the effect of the handler body on the event system itself,
  modelling calls to `on`, `off`, `_setEventParent`, ... from inside a
  handler during dispatch;
* `mutArg` — the mutation the handler performs on the payload object it
  received as its argument;
* `ret` — the return value (only `=== false` matters to `_fire`). -/
structure HSem where
  act : HId → Ctx → World → World
  mutArg : HId → Ctx → Payload → Payload
  ret : HId → Ctx → Payload → Val

/-- The inert handler semantics: handlers that do nothing. -/
def hsId : HSem :=
  ⟨fun _ _ w => w, fun _ _ p => p, fun _ _ _ => Val.undef⟩

/-- Observable events of one dispatch pass:
`call` — a subscriber entry of the queue had its handler function called
(with the given context and argument object); `run` — a user handler body
actually executed (for a once wrapper this is the inner handler, and only
when the guard let it through); `stopProp` — `Z.DomUtil.stopPropagation`
was invoked on the domEvent. -/
inductive TraceEv where
  | call (h : HId) (c : Ctx) (arg : PRef)
  | run (h : HId) (c : Ctx) (arg : PRef)
  | stopProp
deriving DecidableEq, Repr

/-- Set the `called` guard of wrapper `wid`. -/
def markCalled (w : World) (wid : HId) : World :=
  { w with
      wrappers := w.wrappers.map (fun kw =>
        if kw.1 = wid then (kw.1, { kw.2 with called := true }) else kw) }

/-- Run one handler function with context `c` on argument object `arg`.
If the identity is a `_wrapOnceHandler` closure: `if (called) return;`
`called = true`; call the inner handler with the captured context (or the
call-time `this` when none was captured); then
`me.off(evtType, onceHandler, this)`.  The wrapper itself returns
`undefined`.  A plain handler mutates its argument, acts on the world and
returns its value. -/
def invokeHandler (hs : HSem) (st : St) (h : HId) (c : Ctx) (arg : PRef) :
    St × Val × List TraceEv :=
  match alookup st.world.wrappers h with
  | some wr =>
    if wr.called then (st, Val.undef, [.call h c arg])
    else
      let st1 : St := { st with world := markCalled st.world h }
      let ictx := wr.wctx.getD c
      let st2 := heapSet st1 arg (hs.mutArg wr.inner ictx (heapGet st1 arg))
      let st3 : St := { st2 with world := hs.act wr.inner ictx st2.world }
      let st4 : St := { st3 with world := offE st3.world wr.owner wr.evtType (some h) (some c) }
      (st4, Val.undef, [.call h c arg, .run wr.inner ictx arg])
  | none =>
    let st1 := heapSet st arg (hs.mutArg h c (heapGet st arg))
    let st2 : St := { st1 with world := hs.act h c st1.world }
    (st2, hs.ret h c (heapGet st1 arg), [.call h c arg, .run h c arg])

/-- The dispatch loop of `Eventable._fire` over the snapshot `queue`:
for each entry, `passed = Z.Util.extend(\x7b\x7d, param)` — a freshly
allocated shallow copy of the current fields of the caller object — then the
handler is called on `passed`; if it returned `=== false` and
`param['domEvent']` is truthy, the domEvent propagation is stopped. -/
def fireLoop (hs : HSem) (paramRef : PRef) : List Subscriber → St → St × List TraceEv
  | [], st => (st, [])
  | s :: rest, st =>
    let al := heapAlloc st (heapGet st paramRef)
    let iv := invokeHandler hs al.1 s.handler s.context al.2
    let stopTr : List TraceEv :=
      if iv.2.1 = Val.vbool false ∧ truthy (pget (heapGet iv.1 paramRef) "domEvent") then
        [.stopProp]
      else []
    let rec' := fireLoop hs paramRef rest iv.1
    (rec'.1, iv.2.2 ++ stopTr ++ rec'.2)

/-- `Eventable._fire(eventType, param)`: return unchanged when the EventMap
or the chain for the lowercased type is absent; otherwise allocate
`param = \x7b\x7d` when no payload was passed, stamp `type` and `target`
directly onto the caller object, snapshot the chain
(`queue = [].concat(handlerChain)`) and run the dispatch loop over the
snapshot. -/
def fireLocal (hs : HSem) (st : St) (e : EId) (eventType : String)
    (param : Option PRef) : St × List TraceEv :=
  match (getEmitter st.world e).eventMap with
  | none => (st, [])
  | some m =>
    match alookup m (toLowerS eventType) with
    | none => (st, [])
    | some chain =>
      let ap : St × PRef :=
        match param with
        | some r => (st, r)
        | none => heapAlloc st []
      let stamped :=
        pset (pset (heapGet ap.1 ap.2) "type" (Val.vstr eventType)) "target" (Val.vemitter e)
      let st2 := heapSet ap.1 ap.2 stamped
      fireLoop hs ap.2 chain st2

/-- `Eventable.fire`: while `_eventParent` is set, forward the identical
arguments to the parent; otherwise `_fire` locally and return `this`.
`fuel` bounds the delegation-chain walk (the JS recursion does not
terminate on a parent cycle; exhausted fuel yields `none`).  Result:
(state, the emitter `_fire` ran and returned `this` on, trace). -/
def fire (hs : HSem) : Nat → St → EId → String → Option PRef → St × Option EId × List TraceEv
  | 0, st, _, _, _ => (st, none, [])
  | fuel + 1, st, e, t, p =>
    match parentOf st.world e with
    | some par => fire hs fuel st par t p
    | none =>
      let r := fireLocal hs st e t p
      (r.1, some e, r.2)

/-- The `(handler, context)` pairs whose handler function was called during
a pass. -/
def callsOf : List TraceEv → List (HId × Ctx)
  | [] => []
  | .call h c _ :: rest => (h, c) :: callsOf rest
  | _ :: rest => callsOf rest

/-- The argument objects handed to the called handlers, in call order. -/
def argsOf : List TraceEv → List PRef
  | [] => []
  | .call _ _ a :: rest => a :: argsOf rest
  | _ :: rest => argsOf rest

/-- The user handler bodies that actually executed during a pass. -/
def runsOf : List TraceEv → List (HId × Ctx)
  | [] => []
  | .run h c _ :: rest => (h, c) :: runsOf rest
  | _ :: rest => runsOf rest

/-- One `MapTool` instance: `_map` (the host reference; the model has one
host, so `Option Unit`) and `_enabled`. -/
structure Tool where
  tmap : Option Unit
  enabled : Bool
deriving DecidableEq, Repr

/-- Observable actions of the tool lifecycle: `_switchEvents('off'/'on')`
against the host, and `_fireEvent(name)` on the tool. -/
inductive MTEv where
  | switchOff (i : Nat)
  | switchOn (i : Nat)
  | fired (i : Nat) (name : String)
deriving DecidableEq, Repr

/-- State of the `MapTool` world: the tool instances, the host slot
`map['_tool' + this.name]` for the one concrete tool type in play, and a log
of the observable actions in order. -/
structure MTState where
  tools : List Tool
  slot : Option Nat
  log : List MTEv
deriving DecidableEq, Repr

def defaultTool : Tool := ⟨none, false⟩

def getTool (st : MTState) (i : Nat) : Tool := st.tools.getD i defaultTool

def setTool (st : MTState) (i : Nat) (t : Tool) : MTState :=
  { st with tools := st.tools.set i t }

/-- `MapTool.getMap()`: `return this._map`. -/
def getMapT (st : MTState) (i : Nat) : Option Unit := (getTool st i).tmap

/-- `MapTool.enable()`: no-op when unattached or already enabled; else set
`_enabled`, `_switchEvents('off')`, `_registerEvents()` (= switch on), the
optional `onEnable` hook is absent on the abstract base, fire `enable`. -/
def enableT (st : MTState) (i : Nat) : MTState :=
  let t := getTool st i
  if t.tmap = none ∨ t.enabled then st
  else
    let st1 := setTool st i { t with enabled := true }
    { st1 with log := st1.log ++ [.switchOff i, .switchOn i, .fired i "enable"] }

/-- `MapTool.disable()`: no-op when already disabled or unattached; else
clear `_enabled`, `_switchEvents('off')`, the optional `onDisable` hook is
absent, fire `disable`.  Note: `this._map` is NOT cleared. -/
def disableT (st : MTState) (i : Nat) : MTState :=
  let t := getTool st i
  if ¬ t.enabled ∨ t.tmap = none then st
  else
    let st1 := setTool st i { t with enabled := false }
    { st1 with log := st1.log ++ [.switchOff i, .fired i "disable"] }

/-- `MapTool.isEnabled()`. -/
def isEnabledT (st : MTState) (i : Nat) : Bool := (getTool st i).enabled

/-- `MapTool.addTo(map)` on the (always present) host:
`this._map = map`; `if (map[key]) map[key].disable()`; the optional `onAdd`
hook is absent on the abstract base; `this.enable()`; `map[key] = this`;
`this._fireEvent('add')`. -/
def addToT (st : MTState) (i : Nat) : MTState :=
  let st1 := setTool st i { getTool st i with tmap := some () }
  let st2 :=
    match st1.slot with
    | some j => disableT st1 j
    | none => st1
  let st3 := enableT st2 i
  let st4 : MTState := { st3 with slot := some i }
  { st4 with log := st4.log ++ [.fired i "add"] }

/-- A geographic coordinate (the claims only need identity, not geometry). -/
abbrev Coord := Int × Int

/-- The environment a `UIComponent` runs against: its recognized options,
the concrete subclass capabilities (`buildOn`, optional `getOffset`), and
the host map services used by `show`. -/
structure UIEnv where
  single : Bool
  dx : Int
  dy : Int
  buildOK : Bool
  c2vp : Coord → Int × Int
  offset : Option (Int × Int)
  measured : Nat × Nat

/-- State of one `UIComponent` and the host pieces it touches:
`_coordinate`, `__uiDOM`, `_size`, whether `_switchEvents('on')` has
registered the view-change listeners, the singleton cache
`map[this._uiDomKey()]`, the children of the host ui container, the events
fired on the component, the dom-node allocator, and the last absolute pixel
placement written to the dom. -/
structure UISt where
  coordinate : Option Coord
  uiDOM : Option Nat
  size : Option (Nat × Nat)
  eventsOn : Bool
  domCache : Option Nat
  container : List Nat
  fired : List String
  nextDom : Nat
  domPos : Option (Int × Int)
deriving DecidableEq, Repr

/-- `UIComponent.getPosition()`:
`_getViewPoint()` = `coordinateToViewPoint(coordinate) + (dx, dy)`, plus the
optional `getOffset()` capability. -/
def getPositionU (env : UIEnv) (coord : Coord) : Int × Int :=
  let vp := env.c2vp coord
  let vp2 := (vp.1 + env.dx, vp.2 + env.dy)
  match env.offset with
  | some o => (vp2.1 + o.1, vp2.2 + o.2)
  | none => vp2

/-- `UIComponent._removePrevDOM()`: the optional `onDomRemove` hook is
absent; singleton kind — remove and uncache the host-cached dom, drop
`__uiDOM`; otherwise remove this instance's own dom if any. -/
def removePrevDOM (env : UIEnv) (st : UISt) : UISt :=
  if env.single then
    let st1 :=
      match st.domCache with
      | some d => { st with container := st.container.filter (· ≠ d), domCache := none }
      | none => st
    { st1 with uiDOM := none }
  else
    match st.uiDOM with
    | some d => { st with container := st.container.filter (· ≠ d), uiDOM := none }
    | none => st

/-- The error thrown by `UIComponent.show` when no coordinate was passed and
none was ever shown: `throw new Error(...)`. -/
inductive UIErr where
  | invalidShowCoordinate
deriving DecidableEq, Repr

/-- `UIComponent.show(coordinate)`: the coordinate defaults to the
last-shown `_coordinate`; when neither is available the call throws before
anything else happens (in particular before `showstart` is fired).
Otherwise: fire `showstart`; on first display register the view-change
events; commit `_coordinate`; `_removePrevDOM()`; build the dom via the
concrete `buildOn` capability — when it yields nothing, fire `showend` and
return; else measure it, cache it host-wide when singleton, compute the
position, place it, append it to the ui container, fire `showend`.  (The
`eventsToStop` wiring and `autoPan` touch only native dom state and are not
modelled.) -/
def showU (env : UIEnv) (st : UISt) (coordinate : Option Coord) : Except UIErr UISt :=
  match coordinate.orElse (fun _ => st.coordinate) with
  | none => Except.error UIErr.invalidShowCoordinate
  | some coord =>
    let st1 : UISt := { st with fired := st.fired ++ ["showstart"] }
    let st2 : UISt := if st1.uiDOM = none then { st1 with eventsOn := true } else st1
    let st3 : UISt := { st2 with coordinate := some coord }
    let st4 := removePrevDOM env st3
    if env.buildOK then
      let dom := st4.nextDom
      let st5 : UISt := { st4 with uiDOM := some dom, nextDom := dom + 1 }
      let st6 : UISt := { st5 with size := some env.measured }
      let st7 : UISt := if env.single then { st6 with domCache := some dom } else st6
      let st8 : UISt :=
        { st7 with
            domPos := some (getPositionU env coord),
            container := st7.container ++ [dom] }
      Except.ok { st8 with fired := st8.fired ++ ["showend"] }
    else
      Except.ok { st4 with uiDOM := none, fired := st4.fired ++ ["showend"] }

/-! Basic list and association-list lemmas used by the proofs. -/

theorem list_set_oob {α : Type} (l : List α) (i : Nat) (a : α) (h : l.length ≤ i) :
    l.set i a = l := by
  induction l generalizing i with
  | nil => rfl
  | cons x xs ih =>
    cases i with
    | zero => simp at h
    | succ n =>
      simp only [List.set]
      rw [ih n (by simpa using h)]

theorem list_getD_set_self {α : Type} (l : List α) (i : Nat) (a d : α)
    (h : i < l.length) : (l.set i a).getD i d = a := by
  induction l generalizing i with
  | nil => simp at h
  | cons x xs ih =>
    cases i with
    | zero => rfl
    | succ n =>
      simp only [List.set, List.getD_cons_succ]
      exact ih n (by simpa using h)

theorem list_getD_set_ne {α : Type} (l : List α) (i j : Nat) (a d : α)
    (h : i ≠ j) : (l.set i a).getD j d = l.getD j d := by
  induction l generalizing i j with
  | nil => rfl
  | cons x xs ih =>
    cases i with
    | zero =>
      cases j with
      | zero => exact absurd rfl h
      | succ m => rfl
    | succ n =>
      cases j with
      | zero => rfl
      | succ m =>
        simp only [List.set, List.getD_cons_succ]
        exact ih n m (by omega)

theorem list_set_getD_self {α : Type} (l : List α) (i : Nat) (d : α)
    (h : i < l.length) : l.set i (l.getD i d) = l := by
  induction l generalizing i with
  | nil => rfl
  | cons x xs ih =>
    cases i with
    | zero => rfl
    | succ n =>
      simp only [List.getD_cons_succ, List.set]
      rw [ih n (by simpa using h)]

theorem list_getD_append_lt {α : Type} (l l' : List α) (i : Nat) (d : α)
    (h : i < l.length) : (l ++ l').getD i d = l.getD i d := by
  induction l generalizing i with
  | nil => simp at h
  | cons x xs ih =>
    cases i with
    | zero => rfl
    | succ n =>
      simp only [List.cons_append, List.getD_cons_succ]
      exact ih n (by simpa using h)

theorem list_getD_append_self {α : Type} (l : List α) (x d : α) :
    (l ++ [x]).getD l.length d = x := by
  induction l with
  | nil => rfl
  | cons y ys ih =>
    simp only [List.cons_append, List.length_cons, List.getD_cons_succ]
    exact ih

theorem alookup_aupdate_self {κ α : Type} [DecidableEq κ] (m : List (κ × α))
    (k : κ) (v : α) : alookup (aupdate m k v) k = some v := by
  induction m with
  | nil => simp [aupdate, alookup]
  | cons kv rest ih =>
    by_cases h : kv.1 = k
    · simp [aupdate, alookup, h]
    · simp [aupdate, alookup, h, ih]

theorem alookup_aupdate_ne {κ α : Type} [DecidableEq κ] (m : List (κ × α))
    (k k' : κ) (v : α) (h : k ≠ k') : alookup (aupdate m k v) k' = alookup m k' := by
  induction m with
  | nil => simp [aupdate, alookup, h]
  | cons kv rest ih =>
    by_cases h1 : kv.1 = k
    · simp [aupdate, alookup, h1, h]
    · simp only [aupdate, alookup, h1, if_false]
      by_cases h2 : kv.1 = k'
      · simp [h2]
      · simp [h2, ih]

theorem aupdate_self_eq {κ α : Type} [DecidableEq κ] (m : List (κ × α)) (k : κ)
    (v : α) (h : alookup m k = some v) : aupdate m k v = m := by
  induction m with
  | nil => simp [alookup] at h
  | cons kv rest ih =>
    by_cases h1 : kv.1 = k
    · cases kv with
      | mk k0 v0 =>
        simp only at h1
        subst h1
        have hv : v0 = v := by simpa [alookup] using h
        subst hv
        simp [aupdate]
    · simp only [alookup, h1, if_neg h1] at h
      simp [aupdate, h1, ih h]

theorem getEmitter_setEmitter_self (w : World) (e : EId) (em : Emitter)
    (h : e < w.emitters.length) : getEmitter (setEmitter w e em) e = em := by
  simp only [getEmitter, setEmitter]
  exact list_getD_set_self _ _ _ _ h

theorem setEmitter_getEmitter (w : World) (e : EId) :
    setEmitter w e (getEmitter w e) = w := by
  simp only [getEmitter, setEmitter]
  by_cases h : e < w.emitters.length
  · rw [list_set_getD_self w.emitters e defaultEmitter h]
  · rw [list_set_oob w.emitters e _ (Nat.le_of_not_lt h)]

theorem splitChars_ne_nil (sep : Char) (l acc : List Char) :
    splitChars sep l acc ≠ [] := by
  induction l generalizing acc with
  | nil => simp [splitChars]
  | cons c rest ih =>
    simp only [splitChars]
    by_cases h : c = sep
    · simp [h]
    · simp only [h, if_false]
      exact ih _

theorem splitSp_ne_nil (s : String) : splitSp s ≠ [] := by
  simp only [splitSp, ne_eq, List.map_eq_nil_iff]
  exact splitChars_ne_nil _ _ _

theorem setEmitter_setEmitter (w : World) (e : EId) (a b : Emitter) :
    setEmitter (setEmitter w e a) e b = setEmitter w e b := by
  simp [setEmitter, List.set_set]

/-- The chain stored under key `ty` in map `m` contains the `(h, c)` pair. -/
def containsPair (m : EMap) (ty : String) (h : HId) (c : Ctx) : Prop :=
  ((alookup m ty).getD []).any (subMatch h c) = true

theorem containsPair_onTokens (h : HId) (c : Ctx) (toks : List String) (m : EMap)
    (ty : String) (hc : containsPair m ty h c) :
    containsPair (onTokens h c toks m) ty h c := by
  induction toks generalizing m with
  | nil => exact hc
  | cons t ts ih =>
    simp only [onTokens]
    by_cases hd : ((alookup m (toLowerS t)).getD []).any (subMatch h c) = true
    · simp only [hd, if_true]
      exact hc
    · simp only [hd, if_false]
      apply ih
      by_cases hk : toLowerS t = ty
      · subst hk
        unfold containsPair at hc ⊢
        rw [alookup_aupdate_self]
        simp only [Option.getD_some, List.any_append]
        simp [hc]
      · unfold containsPair at hc ⊢
        rw [alookup_aupdate_ne _ _ _ _ hk]
        exact hc

theorem onTokens_cons_contains (h : HId) (c : Ctx) (t : String) (ts : List String)
    (m : EMap) : containsPair (onTokens h c (t :: ts) m) (toLowerS t) h c := by
  simp only [onTokens]
  by_cases hd : ((alookup m (toLowerS t)).getD []).any (subMatch h c) = true
  · simp only [hd, if_true]
    exact hd
  · simp only [hd, if_false]
    apply containsPair_onTokens
    unfold containsPair
    rw [alookup_aupdate_self]
    simp [subMatch]

theorem onTokens_idem (h : HId) (c : Ctx) (t : String) (ts : List String) (m : EMap) :
    onTokens h c (t :: ts) (onTokens h c (t :: ts) m) = onTokens h c (t :: ts) m := by
  have hc := onTokens_cons_contains h c t ts m
  unfold containsPair at hc
  conv_lhs => rw [onTokens]
  simp [hc]

theorem onE_some (w : World) (e : EId) (s : String) (h : HId) (c : Option Ctx)
    (hs : s ≠ "") :
    onE w e s (some h) c =
      setEmitter w e
        { getEmitter w e with
            eventMap := some (onTokens h (c.getD e) (splitSp s)
              ((getEmitter w e).eventMap.getD [])) } := by
  simp [onE, hs]

theorem onE_idem (w : World) (e : EId) (s : String) (h : HId) (c : Option Ctx) :
    onE (onE w e s (some h) c) e s (some h) c = onE w e s (some h) c := by
  by_cases hs : s = ""
  · subst hs
    simp [onE]
  · obtain ⟨t, ts, hts⟩ := List.exists_cons_of_ne_nil (splitSp_ne_nil s)
    by_cases he : e < w.emitters.length
    · rw [onE_some w e s h c hs]
      rw [onE_some _ e s h c hs]
      rw [getEmitter_setEmitter_self _ _ _ he]
      simp only [Option.getD_some]
      rw [hts]
      rw [onTokens_idem]
      rw [setEmitter_setEmitter]
    · have hw : onE w e s (some h) c = w := by
        rw [onE_some w e s h c hs]
        simp [setEmitter, list_set_oob w.emitters e _ (Nat.le_of_not_lt he)]
      rw [hw, hw]

theorem onE_dup_first (w : World) (e : EId) (s : String) (h : HId) (c : Option Ctx)
    (t : String) (ts : List String) (hts : splitSp s = t :: ts)
    (hdup : (chainAt w e t).any (subMatch h (c.getD e)) = true) :
    onE w e s (some h) c = w := by
  by_cases hs : s = ""
  · subst hs
    simp [onE]
  · rw [onE_some w e s h c hs, hts]
    have hstep : onTokens h (c.getD e) (t :: ts)
        ((getEmitter w e).eventMap.getD []) = (getEmitter w e).eventMap.getD [] := by
      have hdup' : ((alookup ((getEmitter w e).eventMap.getD []) (toLowerS t)).getD []).any
          (subMatch h (c.getD e)) = true := hdup
      simp only [onTokens]
      simp [hdup']
    rw [hstep]
    cases hm : (getEmitter w e).eventMap with
    | none =>
      exfalso
      have : chainAt w e t = [] := by
        unfold chainAt
        rw [hm]
        simp [alookup]
      rw [this] at hdup
      simp at hdup
    | some m =>
      have hrec : { getEmitter w e with eventMap := some m } = getEmitter w e := by
        rw [← hm]
      simp only [Option.getD_some]
      rw [hrec, setEmitter_getEmitter]

/-- A world of `n` fresh emitters; user handler identities are taken below
1000, so the wrapper allocator never collides with them. -/
def mkWorld (n : Nat) : World := ⟨List.replicate n defaultEmitter, [], 1000⟩

def w_c1a : World := onE (mkWorld 1) 0 "a" (some 5) none

def w_c1b : World := onE w_c1a 0 "a b" (some 5) none

/-- C1, counterexample.  After `on('a', h)`, the call `on('a b', h)` finds
the `(h, this)` pair in the chain of the first token `'a'` and returns
immediately, so — contrary to the claim that the pair "is still appended to
the chains of every remaining token" — nothing is ever registered for
`'b'`. -/
theorem c1_counterexample :
    chainAt w_c1b 0 "b" = [] ∧ listensE w_c1b 0 "b" (some 5) none = 0 ∧
    chainAt w_c1b 0 "a" = [⟨5, 0⟩] := by decide

/-- C1, amended.  `on(types, handler, context)` does not process the
space-separated tokens independently: a token whose HandlerChain already
contains the `(handler, resolvedContext)` pair makes the whole call return
at once, so the pair is appended only to tokens processed before that
point and the remaining tokens are skipped (second conjunct: when already
the first token holds the pair, the call leaves the emitter unchanged).
Re-registration with identical arguments is exactly a no-op (first
conjunct: `on` is idempotent), so a duplicate registration leaves one copy
of the pair per processed token and one invocation per fire. -/
theorem c1_on_dedup_aborts_call (w : World) (e : EId) (s : String) (h : HId)
    (c : Option Ctx) :
    (onE (onE w e s (some h) c) e s (some h) c = onE w e s (some h) c) ∧
    (∀ t ts, splitSp s = t :: ts →
      (chainAt w e t).any (subMatch h (c.getD e)) = true →
      onE w e s (some h) c = w) :=
  ⟨onE_idem w e s h c, fun t ts hts hdup => onE_dup_first w e s h c t ts hts hdup⟩

/-- C1, witness: the amended theorem applied at a concrete input, with the
hypotheses discharged by evaluation. -/
theorem c1_witness : onE w_c1a 0 "a b" (some 5) none = w_c1a :=
  (c1_on_dedup_aborts_call w_c1a 0 "a b" 5 none).2 "a" ["b"] (by decide) (by decide)

theorem callsOf_append (a b : List TraceEv) :
    callsOf (a ++ b) = callsOf a ++ callsOf b := by
  induction a with
  | nil => rfl
  | cons ev rest ih => cases ev <;> simp [callsOf, ih]

theorem argsOf_append (a b : List TraceEv) :
    argsOf (a ++ b) = argsOf a ++ argsOf b := by
  induction a with
  | nil => rfl
  | cons ev rest ih => cases ev <;> simp [argsOf, ih]

theorem callsOf_invokeHandler (hs : HSem) (st : St) (h : HId) (c : Ctx) (arg : PRef) :
    callsOf (invokeHandler hs st h c arg).2.2 = [(h, c)] := by
  unfold invokeHandler
  cases alookup st.world.wrappers h with
  | none => rfl
  | some wr =>
    by_cases hc : wr.called
    · simp [hc, callsOf]
    · simp [hc, callsOf]

theorem callsOf_ite_stop (P : Prop) [Decidable P] :
    callsOf (if P then [TraceEv.stopProp] else []) = [] := by
  split <;> rfl

theorem argsOf_ite_stop (P : Prop) [Decidable P] :
    argsOf (if P then [TraceEv.stopProp] else []) = [] := by
  split <;> rfl

theorem callsOf_fireLoop (hs : HSem) (pref : PRef) (q : List Subscriber) :
    ∀ st, callsOf (fireLoop hs pref q st).2 = q.map (fun s => (s.handler, s.context)) := by
  induction q with
  | nil => intro st; rfl
  | cons s rest ih =>
    intro st
    simp only [fireLoop]
    rw [callsOf_append, callsOf_append, callsOf_invokeHandler, callsOf_ite_stop, ih]
    simp

/-- Shared dispatch lemma: the `(handler, context)` pairs called by one
`_fire` pass are exactly the HandlerChain as it stood when the pass began,
whatever the handlers themselves do to the event system. -/
theorem callsOf_fireLocal (hs : HSem) (st : St) (e : EId) (t : String)
    (p : Option PRef) :
    callsOf (fireLocal hs st e t p).2 =
      (chainAt st.world e t).map (fun s => (s.handler, s.context)) := by
  unfold fireLocal chainAt
  cases hm : (getEmitter st.world e).eventMap with
  | none => simp [alookup, callsOf]
  | some m =>
    cases hl : alookup m (toLowerS t) with
    | none => simp [hl, callsOf]
    | some chain =>
      simp only [hl, Option.getD_some]
      rw [callsOf_fireLoop]

/-- C2.  `_fire` copies the HandlerChain before dispatching
(`queue = [].concat(handlerChain)`), so the handler functions called in a
pass are exactly the chain members captured at the start of the call — for
every handler semantics `hs`, including semantics whose `act` performs
`off` or `on` for the same type on the dispatching emitter mid-pass.
Handlers removed during the pass are still called; handlers added during
the pass are not. -/
theorem c2_fire_snapshot_isolation (hs : HSem) (st : St) (e : EId) (t : String)
    (p : Option PRef) :
    callsOf (fireLocal hs st e t p).2 =
      (chainAt st.world e t).map (fun s => (s.handler, s.context)) :=
  callsOf_fireLocal hs st e t p

theorem argsOf_invokeHandler (hs : HSem) (st : St) (h : HId) (c : Ctx) (arg : PRef) :
    argsOf (invokeHandler hs st h c arg).2.2 = [arg] := by
  unfold invokeHandler
  cases alookup st.world.wrappers h with
  | none => rfl
  | some wr =>
    by_cases hc : wr.called
    · simp [hc, argsOf]
    · simp [hc, argsOf]

theorem invokeHandler_plain_fst (hs : HSem) (hact : ∀ h c w, hs.act h c w = w)
    (st : St) (h : HId) (c : Ctx) (arg : PRef)
    (hwr : alookup st.world.wrappers h = none) :
    (invokeHandler hs st h c arg).1 =
      { world := st.world, heap := st.heap.set arg (hs.mutArg h c (heapGet st arg)) } := by
  unfold invokeHandler
  simp [hwr, heapSet, hact]

theorem fireLoop_cons_fst (hs : HSem) (pref : PRef) (s : Subscriber)
    (rest : List Subscriber) (st : St) :
    (fireLoop hs pref (s :: rest) st).1 =
      (fireLoop hs pref rest
        (invokeHandler hs (heapAlloc st (heapGet st pref)).1 s.handler s.context
          (heapAlloc st (heapGet st pref)).2).1).1 := rfl

theorem fireLoop_cons_args (hs : HSem) (pref : PRef) (s : Subscriber)
    (rest : List Subscriber) (st : St) :
    argsOf (fireLoop hs pref (s :: rest) st).2 =
      (heapAlloc st (heapGet st pref)).2 ::
        argsOf (fireLoop hs pref rest
          (invokeHandler hs (heapAlloc st (heapGet st pref)).1 s.handler s.context
            (heapAlloc st (heapGet st pref)).2).1).2 := by
  conv_lhs => rw [fireLoop]
  rw [argsOf_append, argsOf_append, argsOf_invokeHandler, argsOf_ite_stop]
  simp

/-- The dispatch state after one plain, event-system-pure handler of the
queue has been processed: its clone sits at the old heap end, mutated by the
handler; the event system is untouched. -/
def stepState (hs : HSem) (st : St) (pref : PRef) (s : Subscriber) : St :=
  { world := st.world,
    heap := (st.heap ++ [heapGet st pref]).set st.heap.length
      (hs.mutArg s.handler s.context (heapGet st pref)) }

theorem stepState_len (hs : HSem) (st : St) (pref : PRef) (s : Subscriber) :
    (stepState hs st pref s).heap.length = st.heap.length + 1 := by
  simp [stepState, List.length_set]

theorem stepState_pres (hs : HSem) (st : St) (pref : PRef) (s : Subscriber)
    (r : PRef) (hr : r < st.heap.length) :
    heapGet (stepState hs st pref s) r = heapGet st r := by
  simp only [stepState, heapGet]
  rw [list_getD_set_ne (st.heap ++ [st.heap.getD pref []]) st.heap.length r
    (hs.mutArg s.handler s.context (st.heap.getD pref [])) [] (Nat.ne_of_gt hr)]
  exact list_getD_append_lt _ _ _ _ hr

theorem stepState_top (hs : HSem) (st : St) (pref : PRef) (s : Subscriber) :
    heapGet (stepState hs st pref s) st.heap.length =
      hs.mutArg s.handler s.context (heapGet st pref) := by
  simp only [stepState, heapGet]
  rw [list_getD_set_self]
  simp

theorem invokeHandler_step (hs : HSem) (hact : ∀ h c w, hs.act h c w = w)
    (st : St) (pref : PRef) (s : Subscriber)
    (hwr : alookup st.world.wrappers s.handler = none) :
    (invokeHandler hs (heapAlloc st (heapGet st pref)).1 s.handler s.context
      (heapAlloc st (heapGet st pref)).2).1 = stepState hs st pref s := by
  have hwr' : alookup (heapAlloc st (heapGet st pref)).1.world.wrappers s.handler = none := hwr
  rw [invokeHandler_plain_fst hs hact _ _ _ _ hwr']
  simp [heapAlloc, heapGet, stepState, list_getD_append_self]

/-- Dispatch-loop heap analysis for a queue of plain handlers whose bodies
do not rewrite the event system (`act` is the identity): the loop allocates
one fresh clone per queue entry at consecutive references, never changes
pre-existing heap entries, and leaves each clone holding exactly its own
handler's mutation of the caller object's contents at loop entry. -/
theorem fireLoop_pure_spec (hs : HSem) (hact : ∀ h c w, hs.act h c w = w)
    (pref : PRef) :
    ∀ (q : List Subscriber) (st : St),
      (∀ s ∈ q, alookup st.world.wrappers s.handler = none) →
      pref < st.heap.length →
      (fireLoop hs pref q st).1.world = st.world ∧
      (fireLoop hs pref q st).1.heap.length = st.heap.length + q.length ∧
      (∀ r, r < st.heap.length → heapGet (fireLoop hs pref q st).1 r = heapGet st r) ∧
      argsOf (fireLoop hs pref q st).2 = List.range' st.heap.length q.length ∧
      (∀ i, i < q.length →
        heapGet (fireLoop hs pref q st).1 (st.heap.length + i) =
          hs.mutArg (q.getD i ⟨0, 0⟩).handler (q.getD i ⟨0, 0⟩).context
            (heapGet st pref)) := by
  intro q
  induction q with
  | nil =>
    intro st _ _
    exact ⟨rfl, by simp [fireLoop], fun r _ => rfl, rfl, fun i hi => absurd hi (by simp)⟩
  | cons s rest ih =>
    intro st hplain hpref
    have hwr : alookup st.world.wrappers s.handler = none := hplain s (by simp)
    have hiv := invokeHandler_step hs hact st pref s hwr
    have hplain2 : ∀ s' ∈ rest, alookup (stepState hs st pref s).world.wrappers s'.handler = none :=
      fun s' hmem => hplain s' (List.mem_cons_of_mem s hmem)
    have hpref2 : pref < (stepState hs st pref s).heap.length := by
      rw [stepState_len]
      exact Nat.lt_succ_of_lt hpref
    obtain ⟨ih1, ih2, ih3, ih4, ih5⟩ := ih (stepState hs st pref s) hplain2 hpref2
    refine ⟨?_, ?_, ?_, ?_, ?_⟩
    · rw [fireLoop_cons_fst, hiv, ih1]
      rfl
    · rw [fireLoop_cons_fst, hiv, ih2, stepState_len]
      simp only [List.length_cons]
      omega
    · intro r hr
      rw [fireLoop_cons_fst, hiv, ih3 r (by rw [stepState_len]; omega)]
      exact stepState_pres hs st pref s r hr
    · rw [fireLoop_cons_args, hiv, ih4, stepState_len]
      simp [heapAlloc, List.range']
    · intro i hi
      rw [fireLoop_cons_fst, hiv]
      cases i with
      | zero =>
        rw [Nat.add_zero, ih3 st.heap.length (by rw [stepState_len]; omega)]
        exact stepState_top hs st pref s
      | succ j =>
        have hj : j < rest.length := by
          simpa using Nat.lt_of_succ_lt_succ hi
        have hidx : st.heap.length + (j + 1) = (stepState hs st pref s).heap.length + j := by
          rw [stepState_len]
          omega
        rw [hidx, ih5 j hj, stepState_pres hs st pref s pref hpref]
        rfl

theorem fireLocal_some_eq (hs : HSem) (st : St) (e : EId) (t : String)
    (pref : PRef) (m : EMap) (chain : List Subscriber)
    (hm : (getEmitter st.world e).eventMap = some m)
    (hl : alookup m (toLowerS t) = some chain) :
    fireLocal hs st e t (some pref) =
      fireLoop hs pref chain
        (heapSet st pref
          (pset (pset (heapGet st pref) "type" (Val.vstr t)) "target" (Val.vemitter e))) := by
  unfold fireLocal
  simp only [hm, hl]

/-- A world with one emitter holding one plain handler for type `ev`, and a
heap holding the caller's (empty) payload object at reference 0. -/
def st0C3 : St := ⟨⟨[⟨some [("ev", [⟨5, 0⟩])], none⟩], [], 1000⟩, [[]]⟩

/-- C3, counterexample.  `_fire` does not clone the payload before stamping:
`param['type'] = eventType; param['target'] = this` mutate the very object
the caller passed, so after the fire the caller's payload object has
changed — contrary to the claim that it is "left unmodified". -/
theorem c3_counterexample :
    heapGet (fireLocal hsId st0C3 0 "ev" (some 0)).1 0 ≠ heapGet st0C3 0 := by
  decide

/-- C3, amended.  `_fire` stamps `type` and the firing emitter directly onto
the caller's payload object, mutating it in place (first conjunct: after the
pass the caller's object holds the stamped fields).  Independence of the
per-handler clones holds as claimed: each handler is called on a freshly
allocated clone — the clone references are the consecutive fresh heap
references (second conjunct), none of them is the caller's object (third),
no two handlers share a clone (fourth), and after the pass each clone holds
exactly its own handler's mutation of the stamped payload, untouched by the
other handlers (fifth).  Stated for chains of plain handlers whose bodies
leave the event system unchanged and may mutate only their argument. -/
theorem c3_fire_stamps_caller_and_clones_per_handler
    (hs : HSem) (hact : ∀ h c w, hs.act h c w = w)
    (st : St) (e : EId) (t : String) (pref : PRef) (m : EMap) (chain : List Subscriber)
    (hm : (getEmitter st.world e).eventMap = some m)
    (hl : alookup m (toLowerS t) = some chain)
    (hplain : ∀ s ∈ chain, alookup st.world.wrappers s.handler = none)
    (hpref : pref < st.heap.length) :
    heapGet (fireLocal hs st e t (some pref)).1 pref =
        pset (pset (heapGet st pref) "type" (Val.vstr t)) "target" (Val.vemitter e) ∧
    argsOf (fireLocal hs st e t (some pref)).2 = List.range' st.heap.length chain.length ∧
    pref ∉ argsOf (fireLocal hs st e t (some pref)).2 ∧
    (argsOf (fireLocal hs st e t (some pref)).2).Nodup ∧
    (∀ i, i < chain.length →
      heapGet (fireLocal hs st e t (some pref)).1 (st.heap.length + i) =
        hs.mutArg (chain.getD i ⟨0, 0⟩).handler (chain.getD i ⟨0, 0⟩).context
          (pset (pset (heapGet st pref) "type" (Val.vstr t)) "target" (Val.vemitter e))) := by
  have heq := fireLocal_some_eq hs st e t pref m chain hm hl
  have hlen2 : (heapSet st pref
      (pset (pset (heapGet st pref) "type" (Val.vstr t)) "target" (Val.vemitter e))).heap.length
      = st.heap.length := by
    simp [heapSet, List.length_set]
  have hget2 : heapGet (heapSet st pref
      (pset (pset (heapGet st pref) "type" (Val.vstr t)) "target" (Val.vemitter e))) pref
      = pset (pset (heapGet st pref) "type" (Val.vstr t)) "target" (Val.vemitter e) := by
    simp only [heapSet, heapGet]
    exact list_getD_set_self _ _ _ _ hpref
  have hplain2 : ∀ s ∈ chain, alookup (heapSet st pref
      (pset (pset (heapGet st pref) "type" (Val.vstr t)) "target"
        (Val.vemitter e))).world.wrappers s.handler = none := hplain
  have hpref2 : pref < (heapSet st pref
      (pset (pset (heapGet st pref) "type" (Val.vstr t)) "target"
        (Val.vemitter e))).heap.length := by
    rw [hlen2]
    exact hpref
  obtain ⟨sp1, sp2, sp3, sp4, sp5⟩ :=
    fireLoop_pure_spec hs hact pref chain
      (heapSet st pref
        (pset (pset (heapGet st pref) "type" (Val.vstr t)) "target" (Val.vemitter e)))
      hplain2 hpref2
  refine ⟨?_, ?_, ?_, ?_, ?_⟩
  · rw [heq, sp3 pref hpref2, hget2]
  · rw [heq, sp4, hlen2]
  · rw [heq, sp4, hlen2]
    intro hmem
    rw [List.mem_range'_1] at hmem
    exact absurd hmem.1 (not_le.mpr hpref)
  · rw [heq, sp4]
    exact List.nodup_range' _ _
  · intro i hi
    rw [heq]
    have := sp5 i hi
    rw [hlen2] at this
    rw [this, hget2]

/-- C3, witness: the amended theorem applied to a one-handler chain with the
inert handler semantics, hypotheses discharged by evaluation. -/
theorem c3_witness :
    heapGet (fireLocal hsId st0C3 0 "ev" (some 0)).1 0 =
      pset (pset (heapGet st0C3 0) "type" (Val.vstr "ev")) "target" (Val.vemitter 0) ∧
    argsOf (fireLocal hsId st0C3 0 "ev" (some 0)).2 = List.range' 1 1 := by
  have h := c3_fire_stamps_caller_and_clones_per_handler hsId (fun _ _ _ => rfl)
    st0C3 0 "ev" 0 [("ev", [⟨5, 0⟩])] [⟨5, 0⟩] (by decide) (by decide)
    (by decide) (by decide)
  exact ⟨h.1, h.2.1⟩

/-- The number of times handler body `h` actually ran in a trace. -/
def runsCount (tr : List TraceEv) (h : HId) : Nat :=
  (runsOf tr).countP (fun p => p.1 == h)

def w_c4 : World := onceE (mkWorld 1) 0 "a b" 7 none

def st_c4 : St := ⟨w_c4, []⟩

/-- C4, counterexample.  `once('a b', h)` calls `_wrapOnceHandler` once per
token inside the loop, so each event type gets its own wrapper closure with
its own `called` guard — the guard is NOT shared across the types.  Firing
`'a'` and then `'b'` runs `h` once per type, twice in total; a shared guard
would have allowed only one run. -/
theorem c4_counterexample :
    runsCount (fireLocal hsId st_c4 0 "a" none).2 7 +
      runsCount (fireLocal hsId (fireLocal hsId st_c4 0 "a" none).1 0 "b" none).2 7 = 2 := by
  decide

def w_c4click : World := onceE (mkWorld 1) 0 "click" 7 none

def st_c4click : St := ⟨w_c4click, []⟩

def r_c4one : St × List TraceEv := fireLocal hsId st_c4click 0 "click" none

def r_c4two : St × List TraceEv := fireLocal hsId r_c4one.1 0 "click" none

def st_c4reon : St := ⟨onE r_c4two.1.world 0 "click" (some 7) none, r_c4two.1.heap⟩

/-- C4, amended.  `once(types, handler, context)` wraps the handler in a
guarded self-unregistering closure separately per event-type token — the
guard is per type, not shared — and any single type/handler/context
combination fires exactly once: after `once('click', h)` the first fire runs
`h` once, the second fire runs it zero times (the wrapper removed itself and
its guard is set), and after an explicit re-`on` of `h` a later fire
delivers `h` again. -/
theorem c4_once_guard_per_type :
    runsCount r_c4one.2 7 = 1 ∧
    runsCount r_c4two.2 7 = 0 ∧
    runsCount (fireLocal hsId st_c4reon 0 "click" none).2 7 = 1 ∧
    runsCount (fireLocal hsId st_c4 0 "a" none).2 7 = 1 ∧
    runsCount (fireLocal hsId (fireLocal hsId st_c4 0 "a" none).1 0 "b" none).2 7 = 1 := by
  decide

theorem removeMatches_no_match (h : HId) (c : Ctx) (l : List Subscriber)
    (hn : ∀ s ∈ l, subMatch h c s = false) : removeMatches h c l = l := by
  induction l with
  | nil => rfl
  | cons s rest ih =>
    simp only [removeMatches, hn s (by simp)]
    simp only [Bool.false_eq_true, if_false]
    rw [ih fun s' hmem => hn s' (List.mem_cons_of_mem s hmem)]

theorem removeMatches_removes (h : HId) (c : Ctx) (l : List Subscriber) :
    ∀ s ∈ removeMatches h c l, subMatch h c s = false := by
  induction l with
  | nil => simp [removeMatches]
  | cons x rest ih =>
    simp only [removeMatches]
    by_cases hx : subMatch h c x = true
    · simp only [hx, if_true]
      exact ih
    · simp only [hx, if_false]
      intro s hmem
      cases List.mem_cons.mp hmem with
      | inl heq => subst heq; simpa using hx
      | inr hmem' => exact ih s hmem'

theorem removeMatches_idem (h : HId) (c : Ctx) (l : List Subscriber) :
    removeMatches h c (removeMatches h c l) = removeMatches h c l :=
  removeMatches_no_match h c _ (removeMatches_removes h c l)

theorem offTokens_stable (h : HId) (c : Ctx) :
    ∀ (toks : List String) (m : EMap) (k : String) (ch : List Subscriber),
      alookup m k = some ch → removeMatches h c ch = ch →
      alookup (offTokens h c toks m) k = some ch := by
  intro toks
  induction toks with
  | nil => intro m k ch hk _; exact hk
  | cons t ts ih =>
    intro m k ch hk hfix
    simp only [offTokens]
    cases hl : alookup m (toLowerS t) with
    | none => exact hk
    | some chain =>
      by_cases hkey : toLowerS t = k
      · subst hkey
        rw [hl] at hk
        cases hk
        show alookup (offTokens h c ts (aupdate m (toLowerS t) (removeMatches h c ch)))
          (toLowerS t) = some ch
        rw [aupdate_self_eq m (toLowerS t) (removeMatches h c ch) (by rw [hl, hfix])]
        exact ih m (toLowerS t) ch hl hfix
      · exact ih _ k ch (by rw [alookup_aupdate_ne _ _ _ _ hkey]; exact hk) hfix

theorem offTokens_progress (h : HId) (c : Ctx) :
    ∀ (toks : List String) (m : EMap) (tok : String), tok ∈ toks →
      (∀ t' ∈ toks, (alookup m (toLowerS t')).isSome) →
      alookup (offTokens h c toks m) (toLowerS tok) =
        some (removeMatches h c ((alookup m (toLowerS tok)).getD [])) := by
  intro toks
  induction toks with
  | nil => intro m tok hmem; simp at hmem
  | cons t ts ih =>
    intro m tok hmem hall
    obtain ⟨chain, hl⟩ := Option.isSome_iff_exists.mp (hall t (by simp))
    simp only [offTokens, hl]
    have hupd : alookup (aupdate m (toLowerS t) (removeMatches h c chain)) (toLowerS t) =
        some (removeMatches h c chain) := alookup_aupdate_self _ _ _
    by_cases hkey : toLowerS tok = toLowerS t
    · rw [hkey, hl]
      simp only [Option.getD_some]
      exact offTokens_stable h c ts _ (toLowerS t) (removeMatches h c chain) hupd
        (removeMatches_idem h c chain)
    · have htok : tok ∈ ts := by
        cases List.mem_cons.mp hmem with
        | inl heq => exact absurd (by rw [heq]) hkey
        | inr hmem' => exact hmem'
      have hall' : ∀ t' ∈ ts, (alookup (aupdate m (toLowerS t) (removeMatches h c chain))
          (toLowerS t')).isSome := by
        intro t' hmem'
        by_cases hk2 : toLowerS t = toLowerS t'
        · rw [← hk2, hupd]
          rfl
        · rw [alookup_aupdate_ne _ _ _ _ hk2]
          exact hall t' (List.mem_cons_of_mem t hmem')
      rw [ih _ tok htok hall']
      rw [alookup_aupdate_ne _ _ _ _ (fun heq => hkey heq.symm)]

theorem emitter_lt_of_eventMap_some (w : World) (e : EId) (m : EMap)
    (hm : (getEmitter w e).eventMap = some m) : e < w.emitters.length := by
  by_contra hn
  have hd : getEmitter w e = defaultEmitter := by
    simp only [getEmitter]
    exact List.getD_eq_default _ _ (Nat.le_of_not_lt hn)
  rw [hd] at hm
  simp [defaultEmitter] at hm

theorem offE_some_eq (w : World) (e : EId) (s : String) (h : HId) (c : Option Ctx)
    (m : EMap) (hm : (getEmitter w e).eventMap = some m) (hs : s ≠ "") :
    offE w e s (some h) c =
      setEmitter w e
        { getEmitter w e with
            eventMap := some (offTokens h (c.getD e) (splitSp s) m) } := by
  unfold offE
  simp [hm, hs]

def w_c5a : World := onE (mkWorld 1) 0 "b" (some 5) none

def w_c5b : World := offE w_c5a 0 "a b" (some 5) none

/-- C5, counterexample.  With only `'b'` registered, `off('a b', h)` hits
`if (!handlerChain) return this` on the first token `'a'` and aborts the
whole call: the emitter is returned unchanged and `h` is still registered
for `'b'` — contrary to the claim that a token with no registered chain is
"a no-op for that token only" with the remaining tokens still processed. -/
theorem c5_counterexample :
    w_c5b = w_c5a ∧ listensE w_c5b 0 "b" (some 5) none = 1 := by
  decide

/-- C5, amended.  `off(types, handler, context)` scans each token's chain in
reverse removing every `(handler, resolvedContext)` match, but a token whose
type has no registered chain aborts the whole call: the remaining tokens are
NOT processed (first conjunct: a missing chain at the first token leaves the
emitter unchanged).  When every named token has a registered chain, the pair
is removed from each token's chain as claimed (second conjunct). -/
theorem c5_off_token_abort (w : World) (e : EId) (s : String) (h : HId)
    (c : Option Ctx) (m : EMap) (hm : (getEmitter w e).eventMap = some m) :
    (∀ t ts, splitSp s = t :: ts → alookup m (toLowerS t) = none →
      offE w e s (some h) c = w) ∧
    (∀ tok, s ≠ "" → tok ∈ splitSp s →
      (∀ t' ∈ splitSp s, (alookup m (toLowerS t')).isSome) →
      chainAt (offE w e s (some h) c) e tok =
        removeMatches h (c.getD e) (chainAt w e tok)) := by
  constructor
  · intro t ts hts hnone
    by_cases hs : s = ""
    · subst hs
      simp [offE, hm]
    · rw [offE_some_eq w e s h c m hm hs, hts]
      have habort : offTokens h (c.getD e) (t :: ts) m = m := by
        simp only [offTokens, hnone]
      rw [habort]
      have hrec : { getEmitter w e with eventMap := some m } = getEmitter w e := by
        rw [← hm]
      rw [hrec, setEmitter_getEmitter]
  · intro tok hs hmem hall
    have he := emitter_lt_of_eventMap_some w e m hm
    rw [offE_some_eq w e s h c m hm hs]
    unfold chainAt
    rw [getEmitter_setEmitter_self _ _ _ he]
    simp only [Option.getD_some]
    rw [offTokens_progress h (c.getD e) (splitSp s) m tok hmem hall]
    rw [hm]
    simp only [Option.getD_some]

/-- C5, witness: the amended theorem applied at a concrete input — the
abort conjunct on `off('a b', h)` with only `'b'` registered. -/
theorem c5_witness : offE w_c5a 0 "a b" (some 5) none = w_c5a :=
  (c5_off_token_abort w_c5a 0 "a b" 5 none [("b", [⟨5, 0⟩])] (by decide)).1
    "a" ["b"] (by decide) (by decide)

/-- `fire` walks the delegation chain against the state it was called with
and dispatches at the first emitter with no `_eventParent`; whenever it
reports a dispatching emitter, that emitter has no delegation target. -/
theorem fire_returns_root (hs : HSem) :
    ∀ (n : Nat) (st : St) (e : EId) (t : String) (p : Option PRef) (r : EId),
      (fire hs n st e t p).2.1 = some r → parentOf st.world r = none := by
  intro n
  induction n with
  | zero =>
    intro st e t p r hr
    simp [fire] at hr
  | succ k ih =>
    intro st e t p r hr
    cases hpar : parentOf st.world e with
    | some par =>
      simp only [fire, hpar] at hr
      exact ih st par t p r hr
    | none =>
      simp only [fire, hpar] at hr
      injection hr with hr
      rw [← hr]
      exact hpar

def w_c6 : World :=
  setEventParentE (onE (onE (mkWorld 2) 0 "x" (some 3) none) 1 "x" (some 4) none) 0 1

/-- C6.  With emitter A's `_eventParent` set to emitter B (and B not itself
delegating), `A.fire(type, payload)` forwards the identical arguments
wholesale to B's `fire` and dispatches locally on B: the whole call equals
B's local dispatch on the same `type` and `payload` (first conjunct), and
the handler functions called are exactly B's HandlerChain for the type —
never A's own registrations, whatever A's EventMap holds (second
conjunct). -/
theorem c6_delegated_fire_runs_parent_handlers (hs : HSem) (n : Nat) (st : St)
    (a b : EId) (t : String) (p : Option PRef)
    (hab : parentOf st.world a = some b) (hb : parentOf st.world b = none) :
    fire hs (n + 2) st a t p =
      ((fireLocal hs st b t p).1, some b, (fireLocal hs st b t p).2) ∧
    callsOf (fire hs (n + 2) st a t p).2.2 =
      (chainAt st.world b t).map (fun s => (s.handler, s.context)) := by
  have h1 : fire hs (n + 2) st a t p = fire hs (n + 1) st b t p := by
    show fire hs (n + 1 + 1) st a t p = fire hs (n + 1) st b t p
    simp only [fire, hab]
  have h2 : fire hs (n + 1) st b t p =
      ((fireLocal hs st b t p).1, some b, (fireLocal hs st b t p).2) := by
    simp only [fire, hb]
  rw [h1, h2]
  exact ⟨rfl, callsOf_fireLocal hs st b t p⟩

/-- C6, witness: two concrete emitters, A (id 0, with its own handler 3 for
`x`) delegating to B (id 1, with handler 4 for `x`); firing on A calls
exactly B's chain. -/
theorem c6_witness :
    callsOf (fire hsId 2 ⟨w_c6, []⟩ 0 "x" none).2.2 =
      (chainAt w_c6 1 "x").map (fun s => (s.handler, s.context)) :=
  (c6_delegated_fire_runs_parent_handlers hsId 0 ⟨w_c6, []⟩ 0 1 "x" none
    (by decide) (by decide)).2

/-- C10.  `fire` returns the emitter it dispatched on: with no delegation
target the result is the emitter itself (first conjunct); with
`_eventParent = B` the whole call — state, result emitter and trace — is
exactly B's `fire` with the identical arguments (second conjunct); and an
emitter that has a delegation target is never the returned dispatcher, so
chaining after a delegated fire operates on the (transitive) parent (third
conjunct). -/
theorem c10_fire_returns_dispatching_emitter (hs : HSem) (n : Nat) (st : St)
    (e : EId) (t : String) (p : Option PRef) :
    (parentOf st.world e = none →
      (fire hs (n + 1) st e t p).2.1 = some e) ∧
    (∀ b, parentOf st.world e = some b →
      fire hs (n + 1) st e t p = fire hs n st b t p) ∧
    (parentOf st.world e ≠ none →
      (fire hs (n + 1) st e t p).2.1 ≠ some e) := by
  refine ⟨?_, ?_, ?_⟩
  · intro hnone
    simp [fire, hnone]
  · intro b hb
    simp [fire, hb]
  · intro hne heq
    exact hne (fire_returns_root hs (n + 1) st e t p e heq)

/-- C10, witness: a fresh emitter fires and returns itself; the delegating
emitter of the C6 world never returns itself. -/
theorem c10_witness :
    (fire hsId 1 ⟨mkWorld 1, []⟩ 0 "x" none).2.1 = some 0 ∧
    (fire hsId 2 ⟨w_c6, []⟩ 0 "x" none).2.1 ≠ some 0 :=
  ⟨(c10_fire_returns_dispatching_emitter hsId 0 ⟨mkWorld 1, []⟩ 0 "x" none).1 (by decide),
   (c10_fire_returns_dispatching_emitter hsId 1 ⟨w_c6, []⟩ 0 "x" none).2.2 (by decide)⟩

theorem getTool_setTool_self (st : MTState) (i : Nat) (t : Tool)
    (h : i < st.tools.length) : getTool (setTool st i t) i = t :=
  list_getD_set_self st.tools i t defaultTool h

theorem getTool_setTool_ne (st : MTState) (i j : Nat) (t : Tool) (h : i ≠ j) :
    getTool (setTool st i t) j = getTool st j :=
  list_getD_set_ne st.tools i j t defaultTool h

theorem addToT_eq_of_slot (st : MTState) (i j : Nat) (hslot : st.slot = some j) :
    addToT st i =
      (let st2 := disableT (setTool st i { getTool st i with tmap := some () }) j
       let st3 := enableT st2 i
       { st3 with slot := some i, log := st3.log ++ [.fired i "add"] }) := by
  unfold addToT
  have hs1 : (setTool st i { getTool st i with tmap := some () }).slot = some j := hslot
  simp only [hs1]

theorem disableT_eq (st : MTState) (i : Nat)
    (hen : (getTool st i).enabled = true) (hmap : (getTool st i).tmap = some ()) :
    disableT st i =
      { setTool st i { getTool st i with enabled := false } with
          log := st.log ++ [.switchOff i, .fired i "disable"] } := by
  unfold disableT
  rw [if_neg]
  · rfl
  · simp [hen, hmap]

theorem enableT_eq_enabled (st : MTState) (i : Nat)
    (hen : (getTool st i).enabled = true) : enableT st i = st := by
  unfold enableT
  rw [if_pos]
  right
  exact hen

theorem enableT_eq_disabled (st : MTState) (i : Nat)
    (hen : (getTool st i).enabled = false) (hmap : (getTool st i).tmap = some ()) :
    enableT st i =
      { setTool st i { getTool st i with enabled := true } with
          log := st.log ++ [.switchOff i, .switchOn i, .fired i "enable"] } := by
  unfold enableT
  rw [if_neg]
  · rfl
  · simp [hen, hmap]

theorem getTool_log (X : MTState) (lg : List MTEv) (k : Nat) :
    getTool { X with log := lg } k = getTool X k := rfl

theorem getTool_slot_log (X : MTState) (sl : Option Nat) (lg : List MTEv) (k : Nat) :
    getTool { X with slot := sl, log := lg } k = getTool X k := rfl

theorem setTool_len (X : MTState) (k : Nat) (t : Tool) :
    (setTool X k t).tools.length = X.tools.length := by
  simp [setTool]

theorem addToT_unfolded (st : MTState) (i j : Nat) (hslot : st.slot = some j) :
    addToT st i =
      { enableT (disableT (setTool st i { getTool st i with tmap := some () }) j) i with
          slot := some i,
          log := (enableT (disableT (setTool st i { getTool st i with tmap := some () }) j) i).log
            ++ [.fired i "add"] } := by
  unfold addToT
  have hs1 : (setTool st i { getTool st i with tmap := some () }).slot = some j := hslot
  simp only [hs1]

/-- The state of both tools and the slot after `addTo` evicts the current
occupant: the evicted tool `j` ends disabled but still holding its `_map`
reference, the new tool `i` ends attached and enabled, and the slot holds
`i`. -/
theorem addToT_evicts (st : MTState) (i j : Nat)
    (hi : i < st.tools.length) (hj : j < st.tools.length) (hij : i ≠ j)
    (hslot : st.slot = some j)
    (hjen : (getTool st j).enabled = true)
    (hjmap : (getTool st j).tmap = some ()) :
    getTool (addToT st i) i = ⟨some (), true⟩ ∧
    getTool (addToT st i) j = ⟨some (), false⟩ ∧
    (addToT st i).slot = some i := by
  have hji : j ≠ i := fun hh => hij hh.symm
  have h1len : (setTool st i { getTool st i with tmap := some () }).tools.length
      = st.tools.length := setTool_len st i _
  have h1j : getTool (setTool st i { getTool st i with tmap := some () }) j
      = getTool st j := getTool_setTool_ne st i j _ hij
  have h1i : getTool (setTool st i { getTool st i with tmap := some () }) i
      = { getTool st i with tmap := some () } := getTool_setTool_self st i _ hi
  have hd := disableT_eq (setTool st i { getTool st i with tmap := some () }) j
      (by rw [h1j]; exact hjen) (by rw [h1j]; exact hjmap)
  have h2i : getTool (disableT (setTool st i { getTool st i with tmap := some () }) j) i
      = { getTool st i with tmap := some () } := by
    rw [hd, getTool_log, getTool_setTool_ne _ j i _ hji, h1i]
  have h2j : getTool (disableT (setTool st i { getTool st i with tmap := some () }) j) j
      = { getTool st j with enabled := false } := by
    rw [hd, getTool_log, getTool_setTool_self _ j _ (by rw [h1len]; exact hj), h1j]
  have h2len : (disableT (setTool st i { getTool st i with tmap := some () }) j).tools.length
      = st.tools.length := by
    rw [hd]
    show (setTool (setTool st i { getTool st i with tmap := some () }) j _).tools.length
      = st.tools.length
    rw [setTool_len, h1len]
  rw [addToT_unfolded st i j hslot]
  cases hcase : (getTool st i).enabled with
  | true =>
    have henA : (getTool (disableT (setTool st i
        { getTool st i with tmap := some () }) j) i).enabled = true := by
      rw [h2i]
      exact hcase
    rw [enableT_eq_enabled _ _ henA]
    refine ⟨?_, ?_, rfl⟩
    · rw [getTool_slot_log, h2i]
      cases hgt : getTool st i with
      | mk tm en =>
        rw [hgt] at hcase
        simp
        exact hcase
    · rw [getTool_slot_log, h2j]
      cases hgt : getTool st j with
      | mk tm en =>
        rw [hgt] at hjmap
        simp
        exact hjmap
  | false =>
    have henA : (getTool (disableT (setTool st i
        { getTool st i with tmap := some () }) j) i).enabled = false := by
      rw [h2i]
      exact hcase
    have hmapA : (getTool (disableT (setTool st i
        { getTool st i with tmap := some () }) j) i).tmap = some () := by
      rw [h2i]
    rw [enableT_eq_disabled _ _ henA hmapA]
    refine ⟨?_, ?_, rfl⟩
    · rw [getTool_slot_log, getTool_log,
        getTool_setTool_self _ i _ (by rw [h2len]; exact hi), h2i]
    · rw [getTool_slot_log, getTool_log, getTool_setTool_ne _ i j _ hij, h2j]
      cases hgt : getTool st j with
      | mk tm en =>
        rw [hgt] at hjmap
        simp
        exact hjmap

/-- Host with enabled tool 0 occupying the slot and a fresh detached tool 1. -/
def mt0 : MTState := ⟨[⟨some (), true⟩, ⟨none, false⟩], some 0, []⟩

/-- C7, counterexample.  After tool 1 evicts enabled tool 0 from the slot,
the evicted tool still answers `getMap()` with the host: `disable()` clears
only `_enabled`, never `this._map`, so — contrary to the claim — the evicted
tool has NOT lost its host reference. -/
theorem c7_counterexample : getMapT (addToT mt0 1) 0 = some () := by
  decide

/-- C7, amended.  Attaching tool T2 (index `i`) while enabled tool T1
(index `j`) occupies the host's type-keyed slot first disables T1 and then
enables T2 and installs it into the slot: afterwards T1 is disabled, T2 is
enabled, the slot holds only T2 — but the evicted T1 RETAINS its host
reference (`getMap()` still returns the host); only its enabled flag is
cleared.  The eviction does not sever the host link. -/
theorem c7_slot_exclusive_eviction (st : MTState) (i j : Nat)
    (hi : i < st.tools.length) (hj : j < st.tools.length) (hij : i ≠ j)
    (hslot : st.slot = some j)
    (hjen : (getTool st j).enabled = true)
    (hjmap : (getTool st j).tmap = some ()) :
    isEnabledT (addToT st i) j = false ∧
    isEnabledT (addToT st i) i = true ∧
    (addToT st i).slot = some i ∧
    getMapT (addToT st i) j = some () ∧
    getMapT (addToT st i) i = some () := by
  obtain ⟨hA, hB, hC⟩ := addToT_evicts st i j hi hj hij hslot hjen hjmap
  refine ⟨?_, ?_, hC, ?_, ?_⟩
  · simp [isEnabledT, hB]
  · simp [isEnabledT, hA]
  · simp [getMapT, hB]
  · simp [getMapT, hA]

/-- C7, witness: the amended theorem at the concrete two-tool host. -/
theorem c7_witness :
    isEnabledT (addToT mt0 1) 0 = false ∧
    isEnabledT (addToT mt0 1) 1 = true ∧
    (addToT mt0 1).slot = some 1 ∧
    getMapT (addToT mt0 1) 0 = some () ∧
    getMapT (addToT mt0 1) 1 = some () := by
  have h := c7_slot_exclusive_eviction mt0 1 0 (by decide) (by decide) (by decide)
    (by decide) (by decide) (by decide)
  exact h

/-- C8.  `UIComponent.show` with the coordinate omitted falls back to the
last-shown `_coordinate` (second conjunct: the call is then identical to an
explicit `show` at that coordinate); when the overlay has never been shown
with a coordinate and none is supplied, the call throws
`Error` immediately — in the source the `throw` sits before the
`showstart` fire, which the embedding reflects by returning `Except.error`
with no state produced: no `showstart` is fired and the overlay state does
not advance. -/
theorem c8_show_requires_coordinate (env : UIEnv) (st : UISt) :
    (st.coordinate = none →
      showU env st none = Except.error UIErr.invalidShowCoordinate) ∧
    (∀ c, st.coordinate = some c → showU env st none = showU env st (some c)) := by
  constructor
  · intro hnone
    unfold showU
    simp [Option.orElse, hnone]
  · intro c hc
    unfold showU
    simp [Option.orElse, hc]

/-- A concrete overlay environment: singleton kind, offsets (1, 2), a
doubling projection, no `getOffset` capability, measured size 10 by 20. -/
def envD : UIEnv := ⟨true, 1, 2, true, fun c => (2 * c.1, 2 * c.2), none, (10, 20)⟩

/-- A never-shown overlay. -/
def ui0 : UISt := ⟨none, none, none, false, none, [], [], 0, none⟩

/-- An overlay whose last-shown coordinate is (3, 4). -/
def ui1 : UISt := ⟨some (3, 4), none, none, false, none, [], [], 0, none⟩

/-- C8, witness: the theorem applied to a never-shown overlay (hard error)
and to one with a stored coordinate (fallback). -/
theorem c8_witness :
    showU envD ui0 none = Except.error UIErr.invalidShowCoordinate ∧
    showU envD ui1 none = showU envD ui1 (some (3, 4)) :=
  ⟨(c8_show_requires_coordinate envD ui0).1 rfl,
   (c8_show_requires_coordinate envD ui1).2 (3, 4) rfl⟩

theorem listensCount_zero (h : HId) (ctx : Option Ctx) (l : List Subscriber)
    (hno : ∀ s ∈ l, s.handler ≠ h) : listensCount l (some h) ctx = 0 := by
  induction l with
  | nil => rfl
  | cons s rest ih =>
    simp only [listensCount]
    rw [if_neg]
    · exact ih fun s' hmem => hno s' (List.mem_cons_of_mem s hmem)
    · intro hcontra
      exact hno s (by simp) hcontra.1

/-- C9.  After `once(t, h, ctx)` the subscriber stored in the HandlerChain
of `t` is the freshly created wrapper closure, not `h` itself (first
conjunct: the chain gains the wrapper's identity `w.nextH`, never `h`):
`off(t, h, ctx)` with the original handler therefore removes nothing —
`off` matches the stored handler reference, and no stored reference equals
`h` (second conjunct) — and `listens(t, h)` reports 0 (third conjunct). -/
theorem c9_once_stores_wrapper_not_handler (w : World) (e : EId) (t : String)
    (h : HId) (c : Option Ctx)
    (hts : splitSp t = [t]) (htne : t ≠ "")
    (hnoh : ∀ s ∈ chainAt w e t, s.handler ≠ h)
    (hlt : ∀ s ∈ chainAt w e t, s.handler < w.nextH)
    (hh : h < w.nextH) (he : e < w.emitters.length) :
    chainAt (onceE w e t h c) e t = chainAt w e t ++ [⟨w.nextH, e⟩] ∧
    offE (onceE w e t h c) e t (some h) c = onceE w e t h c ∧
    listensE (onceE w e t h c) e t (some h) none = 0 := by
  have honce : onceE w e t h c =
      onE (wrapOnce w e t h c).1 e t (some w.nextH) none := by
    unfold onceE
    rw [hts]
    rfl
  have hemA : getEmitter (wrapOnce w e t h c).1 e = getEmitter w e := rfl
  have hany : (chainAt w e t).any (subMatch w.nextH e) = false := by
    rw [List.any_eq_false]
    intro s hmem
    simp only [subMatch]
    intro hcontra
    have := hlt s hmem
    rw [of_decide_eq_true hcontra |>.1] at this
    exact absurd this (lt_irrefl _)
  have hchain0 : (alookup ((getEmitter w e).eventMap.getD []) (toLowerS t)).getD []
      = chainAt w e t := rfl
  have hon : onE (wrapOnce w e t h c).1 e t (some w.nextH) none =
      setEmitter (wrapOnce w e t h c).1 e
        { getEmitter w e with
            eventMap := some (aupdate ((getEmitter w e).eventMap.getD []) (toLowerS t)
              (chainAt w e t ++ [⟨w.nextH, e⟩])) } := by
    have hcond : ¬((chainAt w e t).any (subMatch w.nextH e) = true) := by
      rw [hany]
      exact Bool.false_ne_true
    rw [onE_some _ e t _ none htne, hemA, hts]
    simp only [onTokens, hchain0, Option.getD_none]
    rw [if_neg hcond]
  have hlenA : e < (wrapOnce w e t h c).1.emitters.length := he
  have hgetem : getEmitter (onceE w e t h c) e =
      { getEmitter w e with
          eventMap := some (aupdate ((getEmitter w e).eventMap.getD []) (toLowerS t)
            (chainAt w e t ++ [⟨w.nextH, e⟩])) } := by
    rw [honce, hon]
    exact getEmitter_setEmitter_self _ _ _ hlenA
  have hlook : alookup (aupdate ((getEmitter w e).eventMap.getD []) (toLowerS t)
      (chainAt w e t ++ [⟨w.nextH, e⟩])) (toLowerS t) =
      some (chainAt w e t ++ [⟨w.nextH, e⟩]) := alookup_aupdate_self _ _ _
  have hnomatch : ∀ s ∈ chainAt w e t ++ [⟨w.nextH, e⟩], s.handler ≠ h := by
    intro s hmem
    cases List.mem_append.mp hmem with
    | inl hl => exact hnoh s hl
    | inr hr =>
      rw [List.mem_singleton.mp hr]
      intro hcontra
      rw [← hcontra] at hh
      exact absurd hh (lt_irrefl _)
  refine ⟨?_, ?_, ?_⟩
  · unfold chainAt
    rw [hgetem]
    simp only [Option.getD_some]
    rw [hlook]
    rfl
  · rw [offE_some_eq (onceE w e t h c) e t h c _ (by rw [hgetem]) htne, hts]
    have hoff : offTokens h (c.getD e)
        [t] (aupdate ((getEmitter w e).eventMap.getD []) (toLowerS t)
          (chainAt w e t ++ [⟨w.nextH, e⟩])) =
        aupdate ((getEmitter w e).eventMap.getD []) (toLowerS t)
          (chainAt w e t ++ [⟨w.nextH, e⟩]) := by
      simp only [offTokens, hlook]
      rw [removeMatches_no_match h (c.getD e) _ (by
        intro s hmem
        simp only [subMatch, decide_eq_false_iff_not]
        intro hcontra
        exact hnomatch s hmem hcontra.1)]
      exact aupdate_self_eq _ _ _ hlook
    rw [hoff]
    have hrec : { getEmitter (onceE w e t h c) e with
        eventMap := some (aupdate ((getEmitter w e).eventMap.getD []) (toLowerS t)
          (chainAt w e t ++ [⟨w.nextH, e⟩])) } = getEmitter (onceE w e t h c) e := by
      rw [hgetem]
    rw [hrec, setEmitter_getEmitter]
  · unfold listensE
    rw [hgetem]
    simp only [Option.getD_some]
    rw [hlook]
    exact listensCount_zero h none _ hnomatch

/-- C9, witness: the theorem at a fresh emitter — the chain holds only the
wrapper id 1000, `off` with the original handler 7 is a no-op, and
`listens` with 7 reports 0. -/
theorem c9_witness :
    offE (onceE (mkWorld 1) 0 "t" 7 none) 0 "t" (some 7) none =
      onceE (mkWorld 1) 0 "t" 7 none ∧
    listensE (onceE (mkWorld 1) 0 "t" 7 none) 0 "t" (some 7) none = 0 := by
  have hx := c9_once_stores_wrapper_not_handler (mkWorld 1) 0 "t" 7 none
    (by decide) (by decide) (by decide) (by decide) (by decide) (by decide)
  exact ⟨hx.2.1, hx.2.2⟩
